import Mathlib

/-!
Shallow embedding of the keyword-evaluation scoring code of the repository
`dallal9/keyphrase` (files `src/key_eval.py` and `src/KeyEval.py`).

Python strings are embedded as Lean `String`, Python lists as Lean `List`,
Python floats as `ℚ` (all arithmetic performed by the scoring functions is
exact on the rationals produced), and a Python function that may raise an
exception is embedded as an `Option`-valued function, `none` meaning that
the call raises.
-/

/-- Python whitespace characters recognised by `str.split()` with no
arguments: space, tab, newline, carriage return, vertical tab, form feed. -/
def isWS (c : Char) : Bool :=
  c = ' ' || c = '\t' || c = '\n' || c = '\r' || c = '\x0b' || c = '\x0c'

/-- Accumulator-based worker for `splitWS`: walks the character list,
collecting the current token in reverse; whitespace ends the current token,
and empty tokens are discarded (Python `str.split()` semantics). -/
def splitWSAux : List Char → List Char → List String
  | [], cur => if cur.isEmpty then [] else [String.mk cur.reverse]
  | c :: cs, cur =>
    if isWS c then
      (if cur.isEmpty then splitWSAux cs [] else String.mk cur.reverse :: splitWSAux cs [])
    else
      splitWSAux cs (c :: cur)

/-- Embedding of Python `s.split()` (no argument): split on runs of
whitespace, discarding empty fragments. -/
def splitWS (s : String) : List String :=
  splitWSAux s.data []

/-- `isPre pat l` is true when the character list `pat` is a prefix of `l`. -/
def isPre : List Char → List Char → Bool
  | [], _ => true
  | _ :: _, [] => false
  | a :: pat, b :: l => a == b && isPre pat l

/-- `hasSub pat l` is true when `pat` occurs as a contiguous sublist of `l`
(at any position, the empty pattern occurring everywhere). -/
def hasSub (pat : List Char) : List Char → Bool
  | [] => pat.isEmpty
  | b :: l => isPre pat (b :: l) || hasSub pat l

/-- Embedding of the Python substring test `needle in hay` on strings. -/
def strIn (needle hay : String) : Bool :=
  hasSub needle.data hay.data

/-- Fuel-based worker for `strSplit`.  At each position, if the (non-empty)
separator starts here, the accumulated fragment is emitted and the scan
continues after the separator; otherwise the character is accumulated.  The
fuel is an upper bound on the number of steps; `strSplit` supplies the
length of the input, which is sufficient since every step consumes at least
one character. -/
def splitOnAux (sep : List Char) : Nat → List Char → List Char → List String
  | _, [], acc => [String.mk acc.reverse]
  | 0, l, acc => [String.mk (acc.reverse ++ l)]
  | fuel + 1, c :: cs, acc =>
    if isPre sep (c :: cs) && !sep.isEmpty then
      String.mk acc.reverse :: splitOnAux sep fuel (cs.drop (sep.length - 1)) []
    else
      splitOnAux sep fuel cs (c :: acc)

/-- Embedding of Python `s.split(sep)` for a non-empty separator `sep`:
non-overlapping left-to-right splitting that keeps empty fragments. -/
def strSplit (s sep : String) : List String :=
  splitOnAux sep.data s.data.length s.data []

/-- The accumulation loop shared by `get_recall` and `get_precision`
(src/key_eval.py lines 54-58 and 63-67): count, over the elements of `l2`,
those that occur in the list `l1` (Python list membership, i.e. string
equality). -/
def occurCount (l1 l2 : List String) : ℚ :=
  l2.foldl (fun acc each => if l1.contains each then acc + 1 else acc) 0

/-- Embedding of `get_recall` (src/key_eval.py lines 42-59): the count of
elements of `l2` occurring in `l1`, divided by `len(l1)`; raises
(`none`) exactly when `l1` is empty (Python `ZeroDivisionError`). -/
def get_recall (l1 l2 : List String) : Option ℚ :=
  if l1.length = 0 then none
  else some (occurCount l1 l2 / (l1.length : ℚ))

/-- Embedding of `get_precision` (src/key_eval.py lines 62-68): the same
count divided by `len(l2)`; raises (`none`) exactly when `l2` is empty. -/
def get_precision (l1 l2 : List String) : Option ℚ :=
  if l2.length = 0 then none
  else some (occurCount l1 l2 / (l2.length : ℚ))

/-- Embedding of `get_f1` (src/key_eval.py lines 71-74). -/
def get_f1 (r p : ℚ) : ℚ :=
  if r + p = 0 then 0 else 2 * p * r / (p + r)

/-- Embedding of `get_Rprecision` (src/key_eval.py lines 77-85, identical
in src/KeyEval.py lines 55-65): count the whitespace-split tokens of
`phrase2` that occur as a substring of `phrase1`, divided by the larger of
the two token counts; raises (`none`) exactly when that maximum is zero. -/
def get_Rprecision (phrase1 phrase2 : String) : Option ℚ :=
  let occur_count : ℚ :=
    (splitWS phrase2).foldl (fun acc w1 => if strIn w1 phrase1 then acc + 1 else acc) 0
  let d := max (splitWS phrase2).length (splitWS phrase1).length
  if d = 0 then none else some (occur_count / (d : ℚ))

/-- Effectful map for `Option`-valued functions: the embedding of a Python
loop that appends `f a` for each `a`, where any raising call aborts the
whole loop.  (`none` as soon as one call returns `none`.) -/
def optMap {α β : Type} (f : α → Option β) : List α → Option (List β)
  | [] => some []
  | a :: l =>
    match f a with
    | none => none
    | some b =>
      match optMap f l with
      | none => none
      | some bs => some (b :: bs)

/-- Embedding of Python `max(l)` on a list of floats: `none` (a raised
`ValueError`) on the empty list. -/
def maxL : List ℚ → Option ℚ
  | [] => none
  | a :: l =>
    match maxL l with
    | none => some a
    | some m => some (max a m)

/-- Total maximum of a list of rationals, `0` on the empty list; used only
in theorem statements to describe what `maxL` returns on non-empty lists. -/
def listMax : List ℚ → ℚ
  | [] => 0
  | a :: l => l.foldl max a

/-- The inner loop of `get_all_Rprecision` (src/key_eval.py lines 93-96):
collect `get_Rprecision(gphrase, pphrase)` over all predicted phrases, then
take `max(rscores)`; `none` when a `get_Rprecision` call raises or when
`max` is applied to the empty list. -/
def rbest (gphrase : String) (predicted_keywords : List String) : Option ℚ :=
  match optMap (fun pphrase => get_Rprecision gphrase pphrase) predicted_keywords with
  | none => none
  | some rscores => maxL rscores

/-- Embedding of `get_all_Rprecision` (src/key_eval.py lines 88-98): for
each gold phrase the maximum `get_Rprecision` against every predicted
phrase, averaged over the gold phrases.  Raises (`none`) when `max` is
taken of an empty list (empty `predicted_keywords`), when an inner
`get_Rprecision` raises, or when the final division has denominator zero
(empty `gold_keywords`). -/
def get_all_Rprecision (gold_keywords predicted_keywords : List String) : Option ℚ :=
  match optMap (fun gphrase => rbest gphrase predicted_keywords) gold_keywords with
  | none => none
  | some scores =>
    if scores.length = 0 then none
    else some (scores.sum / (scores.length : ℚ))

/-- Embedding of `get_scores` (src/key_eval.py lines 101-106, identical in
src/KeyEval.py lines 79-87): the four metrics `[f1, recall, precision,
Rprecision]`, raising (`none`) when any component raises. -/
def get_scores (gold_keywords predicted_keywords : List String) : Option (List ℚ) :=
  match get_recall gold_keywords predicted_keywords with
  | none => none
  | some r =>
    match get_precision gold_keywords predicted_keywords with
    | none => none
    | some p =>
      match get_all_Rprecision gold_keywords predicted_keywords with
      | none => none
      | some rp => some [get_f1 r p, r, p, rp]

/-- Embedding of `get_all_scores` (src/key_eval.py lines 109-130): base
metrics always; when `adjust` is true and `text` non-empty, the gold
keywords occurring as substrings of `text` form `adjusted_gold`, and the
adjusted metrics are recomputed against it — or left as the empty list when
`adjusted_gold` is empty. -/
def get_all_scores (gold_keywords predicted_keywords : List String)
    (text : String := "") (adjust : Bool := false) : Option (List ℚ × List ℚ) :=
  match get_scores gold_keywords predicted_keywords with
  | none => none
  | some metrics =>
    if adjust then
      if text ≠ "" then
        let adjusted_gold := gold_keywords.filter (fun each => strIn each text)
        if adjusted_gold.length < 1 then some (metrics, [])
        else
          match get_scores adjusted_gold predicted_keywords with
          | none => none
          | some adjusted_metrics => some (metrics, adjusted_metrics)
      else some (metrics, [])
    else some (metrics, [])

namespace KeyEval

/-- Embedding of `get_all_scores` of the first source variant
(src/KeyEval.py lines 90-108).  Its helper scoring functions are
character-for-character the same computations as in src/key_eval.py, so the
shared embeddings above are reused; the only behavioural difference is that
an empty `adjusted_gold` produces the forced zero tuple `[0.0]*4` instead
of the empty list. -/
def get_all_scores (gold_keywords predicted_keywords : List String)
    (text : String := "") (adjust : Bool := false) : Option (List ℚ × List ℚ) :=
  match get_scores gold_keywords predicted_keywords with
  | none => none
  | some metrics =>
    if adjust then
      if text ≠ "" then
        let adjusted_gold := gold_keywords.filter (fun each => strIn each text)
        if adjusted_gold.length < 1 then some (metrics, [0, 0, 0, 0])
        else
          match get_scores adjusted_gold predicted_keywords with
          | none => none
          | some adjusted_metrics => some (metrics, adjusted_metrics)
      else some (metrics, [])
    else some (metrics, [])

end KeyEval

/-- Embedding of the per-field keyword parsing step of `get_key_abs`
(src/key_eval.py lines 201-219): choose the first delimiter present among
`";"`, `","`, `"\t"`, falling back to `" to"`; split on it; then each
fragment containing `"---"` is split again on `"---"`; every sub-fragment
is passed through the external normalizer `clean` (a parameter here, since
`Datasets.utils.clean` is outside this excerpt), accumulating in order. -/
def get_key_abs_step (clean : String → String) (k : String) : List String :=
  let keyword :=
    if strIn ";" k then strSplit k ";"
    else if strIn "," k then strSplit k ","
    else if strIn "\t" k then strSplit k "\t"
    else strSplit k " to"
  keyword.foldl (fun new key =>
    if strIn "---" key then new ++ (strSplit key "---").map clean
    else new ++ [clean key]) []

/-- Embedding of the per-document scoring step of `eval_file`
(src/key_eval.py lines 290-299).  `kwResult` is the outcome of the call
`model.get_keywords(abstracts[i], n=top_n)` (line 290, outside the `try`
block): `none` when that call raises, otherwise the returned list.  The
`try` block (lines 293-299) covers the expression
`get_all_scores(keywords_gold[i], predicted_keywords[0], abstracts[i],
adjust=True)` — including the indexing `predicted_keywords[0]` — and any
exception there is replaced by the zeroed score pair. -/
def eval_step (gold : List String) (kwResult : Option (List (List String)))
    (abstract : String) : Option (List ℚ × List ℚ) :=
  match kwResult with
  | none => none
  | some predicted_keywords =>
    match predicted_keywords.head?.bind
        (fun p0 => get_all_scores gold p0 abstract true) with
    | none => some ([0, 0, 0, 0], [0, 0, 0, 0])
    | some scores => some scores

/-! ### Spec-side descriptions of the scoring formulas -/

/-- The recall formula as the spec states it: the number of predicted items
occurring in the gold list divided by the length of the gold list. -/
def recallSpec (gold pred : List String) : ℚ :=
  (pred.countP (fun x => gold.contains x) : ℚ) / (gold.length : ℚ)

/-- The precision formula as the spec states it: the same count divided by
the length of the predicted list. -/
def precisionSpec (gold pred : List String) : ℚ :=
  (pred.countP (fun x => gold.contains x) : ℚ) / (pred.length : ℚ)

/-- The aggregate-R-precision formula as the spec states it: the average,
over the gold phrases, of the maximum `get_Rprecision` value against every
predicted phrase. -/
def rprecSpec (gold pred : List String) : ℚ :=
  ((gold.map fun g => listMax (pred.map fun p => (get_Rprecision g p).iget)).sum) /
    (gold.length : ℚ)

/-! ### Characterization lemmas for the embedded loops -/

/-- The counting loop used by `get_recall`, `get_precision` and
`get_Rprecision` computes `countP`. -/
theorem foldl_if_count {α : Type} (p : α → Bool) (l : List α) :
    ∀ q : ℚ, l.foldl (fun acc x => if p x then acc + 1 else acc) q = q + (l.countP p : ℚ) := by
  induction l with
  | nil => intro q; simp
  | cons a l ih =>
    intro q
    by_cases h : p a = true
    · simp only [List.foldl, h, if_true, ih, List.countP_cons, h]
      push_cast
      ring
    · simp only [List.foldl, h, if_false, ih, List.countP_cons]
      simp [h]

theorem occurCount_eq (l1 l2 : List String) :
    occurCount l1 l2 = (l2.countP (fun x => l1.contains x) : ℚ) := by
  simpa [occurCount] using foldl_if_count (fun x => l1.contains x) l2 0

theorem get_recall_eq (l1 l2 : List String) (h : l1 ≠ []) :
    get_recall l1 l2 = some ((l2.countP (fun x => l1.contains x) : ℚ) / (l1.length : ℚ)) := by
  simp [get_recall, occurCount_eq, List.length_eq_zero, h]

theorem get_recall_none (l2 : List String) : get_recall [] l2 = none := by
  simp [get_recall]

theorem get_precision_eq (l1 l2 : List String) (h : l2 ≠ []) :
    get_precision l1 l2 = some ((l2.countP (fun x => l1.contains x) : ℚ) / (l2.length : ℚ)) := by
  simp [get_precision, occurCount_eq, List.length_eq_zero, h]

theorem get_precision_none (l1 : List String) : get_precision l1 [] = none := by
  simp [get_precision]

theorem get_Rprecision_eq (p1 p2 : String)
    (h : max (splitWS p2).length (splitWS p1).length ≠ 0) :
    get_Rprecision p1 p2 =
      some (((splitWS p2).countP (fun w1 => strIn w1 p1) : ℚ) /
        ((max (splitWS p2).length (splitWS p1).length : ℕ) : ℚ)) := by
  simp only [get_Rprecision, h, if_false, foldl_if_count, zero_add]

theorem get_Rprecision_none_iff (p1 p2 : String) :
    get_Rprecision p1 p2 = none ↔ splitWS p1 = [] ∧ splitWS p2 = [] := by
  simp only [get_Rprecision]
  by_cases h : max (splitWS p2).length (splitWS p1).length = 0
  · rcases Nat.max_eq_zero_iff.mp h with ⟨h2, h1⟩
    simp [h, List.length_eq_zero.mp h1, List.length_eq_zero.mp h2]
  · simp only [h, if_false]
    constructor
    · intro hc; cases hc
    · rintro ⟨h1, h2⟩
      exact absurd (Nat.max_eq_zero_iff.mpr ⟨by simp [h2], by simp [h1]⟩) h

/-! ### `maxL` lemmas -/

theorem maxL_eq_none_iff (l : List ℚ) : maxL l = none ↔ l = [] := by
  cases l with
  | nil => simp [maxL]
  | cons a l => cases h : maxL l <;> simp [maxL, h]

theorem maxL_mem_and_le (l : List ℚ) (m : ℚ) (h : maxL l = some m) :
    m ∈ l ∧ ∀ x ∈ l, x ≤ m := by
  induction l generalizing m with
  | nil => cases h
  | cons a l ih =>
    cases hl : maxL l with
    | none =>
      have : l = [] := (maxL_eq_none_iff l).mp hl
      subst this
      simp [maxL] at h
      subst h
      simp
    | some m' =>
      simp only [maxL, hl] at h
      obtain ⟨hmem, hle⟩ := ih m' hl
      have hm : m = max a m' := by exact (Option.some_inj.mp h).symm
      subst hm
      constructor
      · rcases max_choice a m' with hc | hc
        · rw [hc]; exact List.mem_cons_self a l
        · rw [hc]; exact List.mem_cons_of_mem a hmem
      · intro x hx
        rcases List.mem_cons.mp hx with rfl | hx2
        · exact le_max_left _ _
        · exact le_trans (hle x hx2) (le_max_right _ _)

theorem maxL_eq_some (l : List ℚ) (m : ℚ) (hmem : m ∈ l) (hle : ∀ x ∈ l, x ≤ m) :
    maxL l = some m := by
  cases hl : maxL l with
  | none =>
    rw [maxL_eq_none_iff] at hl
    subst hl
    cases hmem
  | some m' =>
    obtain ⟨hmem', hle'⟩ := maxL_mem_and_le l m' hl
    exact congrArg some (le_antisymm (hle m' hmem') (hle' m hmem))

theorem maxL_perm (l l₂ : List ℚ) (h : l.Perm l₂) : maxL l = maxL l₂ := by
  cases hl : maxL l with
  | none =>
    rw [maxL_eq_none_iff] at hl
    subst hl
    rw [(maxL_eq_none_iff l₂).mpr h.symm.eq_nil]
  | some m =>
    obtain ⟨hmem, hle⟩ := maxL_mem_and_le l m hl
    exact (maxL_eq_some l₂ m (h.mem_iff.mp hmem) (fun x hx => hle x (h.mem_iff.mpr hx))).symm

theorem foldl_max_mem (l : List ℚ) : ∀ a : ℚ, l.foldl max a = a ∨ l.foldl max a ∈ l := by
  induction l with
  | nil => intro a; left; rfl
  | cons b l ih =>
    intro a
    rcases ih (max a b) with h | h
    · rcases max_choice a b with hc | hc
      · left; simp only [List.foldl]; rw [h, hc]
      · right; simp only [List.foldl]; rw [h, hc]; exact List.mem_cons_self b l
    · right; exact List.mem_cons_of_mem b h

theorem foldl_max_le (l : List ℚ) :
    ∀ a : ℚ, a ≤ l.foldl max a ∧ ∀ x ∈ l, x ≤ l.foldl max a := by
  induction l with
  | nil => intro a; simp
  | cons b l ih =>
    intro a
    obtain ⟨h1, h2⟩ := ih (max a b)
    refine ⟨le_trans (le_max_left a b) h1, ?_⟩
    intro x hx
    rcases List.mem_cons.mp hx with rfl | hx2
    · exact le_trans (le_max_right a x) h1
    · exact h2 x hx2

theorem maxL_eq_listMax (l : List ℚ) (h : l ≠ []) : maxL l = some (listMax l) := by
  cases l with
  | nil => exact absurd rfl h
  | cons a l =>
    apply maxL_eq_some
    · rcases foldl_max_mem l a with hc | hc
      · rw [listMax]; rw [hc]; exact List.mem_cons_self a l
      · rw [listMax]; exact List.mem_cons_of_mem a hc
    · intro x hx
      rcases List.mem_cons.mp hx with rfl | hx2
      · exact (foldl_max_le l x).1
      · exact (foldl_max_le l a).2 x hx2

/-! ### `optMap` lemmas -/

theorem optMap_eq_none_iff {α β : Type} (f : α → Option β) (l : List α) :
    optMap f l = none ↔ ∃ a ∈ l, f a = none := by
  induction l with
  | nil => simp [optMap]
  | cons a l ih =>
    constructor
    · intro h
      simp only [optMap] at h
      cases hfa : f a with
      | none => exact ⟨a, List.mem_cons_self a l, hfa⟩
      | some b =>
        rw [hfa] at h
        cases hl : optMap f l with
        | none =>
          obtain ⟨x, hx, hfx⟩ := ih.mp hl
          exact ⟨x, List.mem_cons_of_mem a hx, hfx⟩
        | some bs => rw [hl] at h; cases h
    · rintro ⟨x, hx, hfx⟩
      simp only [optMap]
      rcases List.mem_cons.mp hx with rfl | hx2
      · rw [hfx]
      · cases hfa : f a with
        | none => rfl
        | some b => rw [ih.mpr ⟨x, hx2, hfx⟩]

theorem optMap_eq_map {α β : Type} [Inhabited β] (f : α → Option β) (l : List α)
    (h : ∀ a ∈ l, (f a).isSome) :
    optMap f l = some (l.map fun a => (f a).iget) := by
  induction l with
  | nil => simp [optMap]
  | cons a l ih =>
    have ha := h a (List.mem_cons_self a l)
    cases hfa : f a with
    | none => rw [hfa] at ha; cases ha
    | some b =>
      simp only [optMap, hfa, ih (fun x hx => h x (List.mem_cons_of_mem a hx))]
      simp [List.map_cons, hfa]

theorem isSome_of_optMap {α β : Type} (f : α → Option β) (l : List α)
    (r : List β) (h : optMap f l = some r) : ∀ a ∈ l, (f a).isSome := by
  intro a ha
  cases hfa : f a with
  | some b => rfl
  | none =>
    rw [(optMap_eq_none_iff f l).mpr ⟨a, ha, hfa⟩] at h
    cases h

theorem optMap_length {α β : Type} (f : α → Option β) (l : List α) :
    ∀ r : List β, optMap f l = some r → r.length = l.length := by
  induction l with
  | nil => intro r h; simp only [optMap] at h; rw [← Option.some_inj.mp h]; rfl
  | cons a l ih =>
    intro r h
    simp only [optMap] at h
    cases hfa : f a with
    | none => rw [hfa] at h; cases h
    | some b =>
      rw [hfa] at h
      cases hl : optMap f l with
      | none => rw [hl] at h; cases h
      | some bs =>
        rw [hl] at h
        rw [← Option.some_inj.mp h]
        simp [ih bs hl]

/-! ### `rbest` / `get_all_Rprecision` / `get_scores` characterizations -/

theorem rbest_eq (g : String) (pred : List String) (hp : pred ≠ [])
    (h : ∀ p ∈ pred, (get_Rprecision g p).isSome) :
    rbest g pred = some (listMax (pred.map fun p => (get_Rprecision g p).iget)) := by
  simp only [rbest, optMap_eq_map _ _ h]
  exact maxL_eq_listMax _ (by simp [hp])

theorem rbest_isSome_elim (g : String) (pred : List String)
    (h : (rbest g pred).isSome) : ∀ p ∈ pred, (get_Rprecision g p).isSome := by
  cases hm : optMap (fun pphrase => get_Rprecision g pphrase) pred with
  | none => rw [rbest, hm] at h; cases h
  | some rs => exact isSome_of_optMap _ _ rs hm

theorem rbest_nil (g : String) : rbest g [] = none := rfl

theorem get_all_Rprecision_eq (gold pred : List String) (hg : gold ≠ []) (hp : pred ≠ [])
    (h : ∀ g ∈ gold, ∀ p ∈ pred, (get_Rprecision g p).isSome) :
    get_all_Rprecision gold pred = some (rprecSpec gold pred) := by
  have hr : ∀ g ∈ gold,
      rbest g pred = some (listMax (pred.map fun p => (get_Rprecision g p).iget)) :=
    fun g hgm => rbest_eq g pred hp (h g hgm)
  have hsome : ∀ g ∈ gold, (rbest g pred).isSome := fun g hgm => by rw [hr g hgm]; rfl
  have hmap : (gold.map fun g => (rbest g pred).iget) =
      gold.map fun g => listMax (pred.map fun p => (get_Rprecision g p).iget) := by
    apply List.map_congr_left
    intro g hgm
    rw [hr g hgm]
  simp only [get_all_Rprecision, optMap_eq_map _ _ hsome, hmap, rprecSpec]
  simp [List.length_eq_zero, hg]

theorem get_all_Rprecision_nil_gold (pred : List String) :
    get_all_Rprecision [] pred = none := rfl

theorem get_all_Rprecision_nil_pred (gold : List String) (hg : gold ≠ []) :
    get_all_Rprecision gold [] = none := by
  obtain ⟨a, l, rfl⟩ := List.exists_cons_of_ne_nil hg
  simp only [get_all_Rprecision]
  rw [(optMap_eq_none_iff _ _).mpr ⟨a, List.mem_cons_self a l, rbest_nil a⟩]

theorem get_all_Rprecision_isSome_elim (gold pred : List String)
    (h : (get_all_Rprecision gold pred).isSome) :
    gold ≠ [] ∧ pred ≠ [] ∧ ∀ g ∈ gold, ∀ p ∈ pred, (get_Rprecision g p).isSome := by
  cases hm : optMap (fun gphrase => rbest gphrase pred) gold with
  | none => rw [get_all_Rprecision, hm] at h; cases h
  | some scores =>
    have hb : ∀ g ∈ gold, (rbest g pred).isSome := isSome_of_optMap _ _ scores hm
    have hg : gold ≠ [] := by
      intro hnil
      subst hnil
      simp only [optMap] at hm
      rw [get_all_Rprecision] at h
      simp only [optMap] at h
      cases h
    have hp : pred ≠ [] := by
      obtain ⟨a, l, rfl⟩ := List.exists_cons_of_ne_nil hg
      intro hnil
      subst hnil
      have hba := hb a (List.mem_cons_self a l)
      rw [rbest_nil a] at hba
      cases hba
    exact ⟨hg, hp, fun g hgm => rbest_isSome_elim g pred (hb g hgm)⟩

theorem get_scores_eq (gold pred : List String) (hg : gold ≠ []) (hp : pred ≠ [])
    (h : ∀ g ∈ gold, ∀ p ∈ pred, (get_Rprecision g p).isSome) :
    get_scores gold pred =
      some [get_f1 (recallSpec gold pred) (precisionSpec gold pred),
        recallSpec gold pred, precisionSpec gold pred, rprecSpec gold pred] := by
  simp only [get_scores, get_recall_eq _ _ hg, get_precision_eq _ _ hp,
    get_all_Rprecision_eq _ _ hg hp h, recallSpec, precisionSpec]

theorem get_scores_isSome_iff (gold pred : List String) :
    (get_scores gold pred).isSome ↔
      gold ≠ [] ∧ pred ≠ [] ∧ ∀ g ∈ gold, ∀ p ∈ pred, (get_Rprecision g p).isSome := by
  constructor
  · intro h
    cases hrec : get_recall gold pred with
    | none => rw [get_scores, hrec] at h; cases h
    | some r =>
      cases hpre : get_precision gold pred with
      | none => rw [get_scores, hrec, hpre] at h; cases h
      | some p =>
        cases hrp : get_all_Rprecision gold pred with
        | none => rw [get_scores, hrec, hpre, hrp] at h; cases h
        | some rp =>
          have := get_all_Rprecision_isSome_elim gold pred (by rw [hrp]; rfl)
          exact this
  · rintro ⟨hg, hp, h⟩
    rw [get_scores_eq gold pred hg hp h]
    rfl

/-! ### Claim C1: recall and precision formulas and their preconditions -/

/-- C1: for every gold and predicted list, `get_recall` returns the count
of predicted items occurring in gold (with predicted multiplicity) divided
by `len(gold)`, and `get_precision` returns that count divided by
`len(predicted)`; each raises (returns `none`) exactly when its denominator
list is empty, so non-emptiness is a precondition of each formula. -/
theorem c1_recall_precision_formulas (gold predicted : List String) :
    (gold ≠ [] →
      get_recall gold predicted =
        some ((predicted.countP (fun x => gold.contains x) : ℚ) / (gold.length : ℚ)))
    ∧ (gold = [] → get_recall gold predicted = none)
    ∧ (predicted ≠ [] →
      get_precision gold predicted =
        some ((predicted.countP (fun x => gold.contains x) : ℚ) / (predicted.length : ℚ)))
    ∧ (predicted = [] → get_precision gold predicted = none) := by
  refine ⟨fun h => get_recall_eq gold predicted h, fun h => ?_,
    fun h => get_precision_eq gold predicted h, fun h => ?_⟩
  · subst h; exact get_recall_none predicted
  · subst h; exact get_precision_none gold

/-- Witness for C1 at gold = `["a"]`, predicted = `["a", "b"]`. -/
theorem c1_witness :
    get_recall ["a"] ["a", "b"] = some 1 ∧ get_precision ["a"] ["a", "b"] = some (1 / 2)
    ∧ get_recall [] ["a"] = none ∧ get_precision ["a"] [] = none := by
  have h1 := (c1_recall_precision_formulas ["a"] ["a", "b"]).1 (by decide)
  have h2 := (c1_recall_precision_formulas ["a"] ["a", "b"]).2.2.1 (by decide)
  have h3 := (c1_recall_precision_formulas [] ["a"]).2.1 rfl
  have h4 := (c1_recall_precision_formulas ["a"] []).2.2.2 rfl
  have hc : (["a", "b"].countP fun x => (["a"] : List String).contains x) = 1 := by decide
  rw [hc] at h1 h2
  refine ⟨?_, ?_, h3, h4⟩
  · rw [h1]; norm_num
  · rw [h2]; norm_num

/-! ### Claim C5: the relaxed per-phrase R-precision formula -/

/-- C5: `get_Rprecision(phrase1, phrase2)` equals the count of
whitespace-split tokens of `phrase2` occurring as substrings of `phrase1`,
divided by the larger of the two token counts (whenever that maximum is
non-zero, i.e. the division is defined); in particular
`get_Rprecision("a b c", "a b") = 2/3`. -/
theorem c5_Rprecision_formula (phrase1 phrase2 : String) :
    (max (splitWS phrase2).length (splitWS phrase1).length ≠ 0 →
      get_Rprecision phrase1 phrase2 =
        some (((splitWS phrase2).countP (fun w1 => strIn w1 phrase1) : ℚ) /
          ((max (splitWS phrase2).length (splitWS phrase1).length : ℕ) : ℚ)))
    ∧ get_Rprecision "a b c" "a b" = some (2 / 3) := by
  refine ⟨get_Rprecision_eq phrase1 phrase2, ?_⟩
  rw [get_Rprecision_eq "a b c" "a b" (by decide)]
  rw [show ((splitWS "a b").countP fun w1 => strIn w1 "a b c") = 2 from by decide,
    show max (splitWS "a b").length (splitWS "a b c").length = 3 from by decide]
  norm_num

/-- Witness for C5 at phrase1 = `"a b c"`, phrase2 = `"a b"`: the formula
instance with its non-zero-denominator hypothesis discharged. -/
theorem c5_witness :
    get_Rprecision "a b c" "a b" =
      some (((splitWS "a b").countP (fun w1 => strIn w1 "a b c") : ℚ) /
        ((max (splitWS "a b").length (splitWS "a b c").length : ℕ) : ℚ)) :=
  (c5_Rprecision_formula "a b c" "a b").1 (by decide)

/-! ### Claim C10: totality of `get_Rprecision` -/

/-- C10: `get_Rprecision` raises (returns `none`) exactly when both phrases
have no whitespace-split tokens; otherwise it is total, and returns `0`
when only `phrase2` is tokenless. -/
theorem c10_Rprecision_totality (phrase1 phrase2 : String) :
    (get_Rprecision phrase1 phrase2 = none ↔ splitWS phrase1 = [] ∧ splitWS phrase2 = [])
    ∧ (splitWS phrase2 = [] → splitWS phrase1 ≠ [] →
        get_Rprecision phrase1 phrase2 = some 0) := by
  refine ⟨get_Rprecision_none_iff phrase1 phrase2, fun h2 h1 => ?_⟩
  have hmax : max (splitWS phrase2).length (splitWS phrase1).length ≠ 0 := by
    simp [h2, List.length_eq_zero, h1]
  rw [get_Rprecision_eq phrase1 phrase2 hmax]
  simp [h2]

/-- Witness for C10: both-empty raises; whitespace-only `phrase2` with a
tokenful `phrase1` gives `0`. -/
theorem c10_witness : get_Rprecision "" "" = none ∧ get_Rprecision "a" " " = some 0 :=
  ⟨(c10_Rprecision_totality "" "").1.mpr ⟨rfl, rfl⟩,
    (c10_Rprecision_totality "a" " ").2 rfl (by decide)⟩

/-! ### Claim C6: aggregate R-precision: average-of-maxima and failure modes -/

/-- Helper: the value of `get_Rprecision "a" "a"`. -/
theorem rp_aa : get_Rprecision "a" "a" = some 1 := by
  rw [get_Rprecision_eq "a" "a" (by decide)]
  rw [show ((splitWS "a").countP fun w1 => strIn w1 "a") = 1 from by decide,
    show max (splitWS "a").length (splitWS "a").length = 1 from by decide]
  norm_num

/-- Helper: the value of `get_Rprecision "a" "b"`. -/
theorem rp_ab : get_Rprecision "a" "b" = some 0 := by
  rw [get_Rprecision_eq "a" "b" (by decide)]
  rw [show ((splitWS "b").countP fun w1 => strIn w1 "a") = 0 from by decide,
    show max (splitWS "b").length (splitWS "a").length = 1 from by decide]
  norm_num

/-- C6: when both lists are non-empty and every inner `get_Rprecision` call
returns a value, `get_all_Rprecision(gold, predicted)` is the average over
the gold phrases of the maximum `get_Rprecision` of that gold phrase
against every predicted phrase (`rprecSpec`); it raises (returns `none`)
when `gold` is empty (division by zero) and when `predicted` is empty while
`gold` is non-empty (`max` of an empty sequence). -/
theorem c6_all_Rprecision_average (gold predicted : List String) :
    (gold = [] → get_all_Rprecision gold predicted = none)
    ∧ (gold ≠ [] → predicted = [] → get_all_Rprecision gold predicted = none)
    ∧ (gold ≠ [] → predicted ≠ [] →
        (∀ g ∈ gold, ∀ p ∈ predicted, (get_Rprecision g p).isSome) →
        get_all_Rprecision gold predicted = some (rprecSpec gold predicted)) := by
  refine ⟨fun h => ?_, fun hg hp => ?_, fun hg hp h => get_all_Rprecision_eq gold predicted hg hp h⟩
  · subst h; exact get_all_Rprecision_nil_gold predicted
  · subst hp; exact get_all_Rprecision_nil_pred gold hg

/-- Witness for C6 with `gold = ["a"]`, `predicted = ["a", "b"]`, plus the
two failure modes. -/
theorem c6_witness :
    get_all_Rprecision [] ["a"] = none ∧ get_all_Rprecision ["a"] [] = none
    ∧ get_all_Rprecision ["a"] ["a", "b"] = some 1 := by
  have h1 := (c6_all_Rprecision_average [] ["a"]).1 rfl
  have h2 := (c6_all_Rprecision_average ["a"] []).2.1 (by decide) rfl
  have h3 := (c6_all_Rprecision_average ["a"] ["a", "b"]).2.2 (by decide) (by decide)
    (by decide)
  refine ⟨h1, h2, ?_⟩
  rw [h3]
  rw [show rprecSpec ["a"] ["a", "b"] =
    (listMax [(get_Rprecision "a" "a").iget, (get_Rprecision "a" "b").iget] + 0) / 1 from rfl]
  rw [rp_aa, rp_ab]
  norm_num [listMax]

/-! ### Claim C7: the keyword parser -/

/-- Helper: the fragment-processing loop of `get_key_abs_step` is a
`flatMap` over the fragments. -/
theorem foldl_key_flatMap (clean : String → String) (l : List String) :
    ∀ acc : List String,
      l.foldl (fun new key =>
        if strIn "---" key then new ++ (strSplit key "---").map clean
        else new ++ [clean key]) acc
      = acc ++ l.flatMap (fun key =>
          if strIn "---" key then (strSplit key "---").map clean else [clean key]) := by
  induction l with
  | nil => intro acc; simp
  | cons a l ih =>
    intro acc
    by_cases h : strIn "---" a = true <;>
      simp [List.foldl, h, ih, List.append_assoc]

/-- C7: the keyword parser splits on the first delimiter present in
priority order `";"`, `","`, `"\t"`, with `" to"` as fallback; each
fragment containing `"---"` is split again on `"---"`; every sub-fragment
is normalized by `clean`, preserving order.  In particular `"a;b;c"` yields
`[clean "a", clean "b", clean "c"]` and so does `"a---b,c"`. -/
theorem c7_keyword_splitting (clean : String → String) :
    get_key_abs_step clean "a;b;c" = [clean "a", clean "b", clean "c"]
    ∧ get_key_abs_step clean "a---b,c" = [clean "a", clean "b", clean "c"]
    ∧ ∀ k : String,
        get_key_abs_step clean k =
          (if strIn ";" k then strSplit k ";"
           else if strIn "," k then strSplit k ","
           else if strIn "\t" k then strSplit k "\t"
           else strSplit k " to").flatMap
            (fun key => if strIn "---" key then (strSplit key "---").map clean
              else [clean key]) := by
  refine ⟨rfl, rfl, fun k => ?_⟩
  rw [get_key_abs_step]
  rw [foldl_key_flatMap clean _ []]
  rw [List.nil_append]

/-- Witness for C7: the parser at the two example inputs with the identity
normalizer. -/
theorem c7_witness :
    get_key_abs_step id "a;b;c" = ["a", "b", "c"]
    ∧ get_key_abs_step id "a---b,c" = ["a", "b", "c"] :=
  ⟨(c7_keyword_splitting id).1, (c7_keyword_splitting id).2.1⟩

/-! ### Claim C3: empty adjusted gold in the two variants -/

/-- C3: with `adjust` true, non-empty `text`, and no gold keyword occurring
as a substring of `text`, the src/key_eval.py variant returns the base
metrics with an empty adjusted-metrics list, while the src/KeyEval.py
variant returns the base metrics with the forced zero tuple `[0,0,0,0]`. -/
theorem c3_empty_adjusted_gold (gold predicted : List String) (text : String)
    (htext : text ≠ "") (hnone : ∀ g ∈ gold, strIn g text = false)
    (m : List ℚ) (hm : get_scores gold predicted = some m) :
    get_all_scores gold predicted text true = some (m, [])
    ∧ KeyEval.get_all_scores gold predicted text true = some (m, [0, 0, 0, 0]) := by
  have hfilter : gold.filter (fun each => strIn each text) = [] :=
    List.filter_eq_nil_iff.mpr (fun a ha => by simp [hnone a ha])
  constructor
  · simp only [get_all_scores, hm, hfilter]
    simp [htext]
  · simp only [KeyEval.get_all_scores, hm, hfilter]
    simp [htext]

/-- Helper: the value of `get_scores ["a"] ["b"]` (all-zero metrics). -/
theorem get_scores_a_b : get_scores ["a"] ["b"] = some [0, 0, 0, 0] := by
  rw [get_scores_eq ["a"] ["b"] (by decide) (by decide) (by decide)]
  rw [show recallSpec ["a"] ["b"] = 0 from by
      simp [recallSpec, show (["b"].countP fun x => (["a"] : List String).contains x) = 0
        from by decide],
    show precisionSpec ["a"] ["b"] = 0 from by
      simp [precisionSpec, show (["b"].countP fun x => (["a"] : List String).contains x) = 0
        from by decide],
    show rprecSpec ["a"] ["b"] =
      (listMax [(get_Rprecision "a" "b").iget] + 0) / 1 from rfl]
  rw [rp_ab]
  norm_num [get_f1, listMax]

/-- Witness for C3 at `gold = ["a"]`, `predicted = ["b"]`, `text = "xyz"`. -/
theorem c3_witness :
    get_all_scores ["a"] ["b"] "xyz" true = some ([0, 0, 0, 0], [])
    ∧ KeyEval.get_all_scores ["a"] ["b"] "xyz" true =
        some ([0, 0, 0, 0], [0, 0, 0, 0]) :=
  c3_empty_adjusted_gold ["a"] ["b"] "xyz" (by decide) (by decide) _ get_scores_a_b

/-! ### Claim C4: which per-document exceptions eval_file catches -/

/-- C4 (counterexample to the claim as stated): an exception raised by the
model call `model.get_keywords` (line 290 of src/key_eval.py, outside the
`try` block) is not replaced by the all-zero score pair: it propagates out
of the per-document step. -/
theorem c4_counterexample :
    eval_step ["a"] none "x" = none
    ∧ eval_step ["a"] none "x" ≠ some ([0, 0, 0, 0], [0, 0, 0, 0]) :=
  ⟨rfl, by simp [eval_step]⟩

/-- C4 (amended): an exception raised while scoring — inside
`get_all_scores`, including the `predicted_keywords[0]` indexing, e.g. on a
malformed document with an empty gold or predicted set — is caught at the
per-document level and replaced with the all-zero score pair; an exception
from `model.get_keywords` is not caught and aborts the evaluation. -/
theorem c4_scoring_caught_model_not (gold : List String)
    (predicted : List (List String)) (abstract : String) :
    ((predicted.head?.bind fun p0 => get_all_scores gold p0 abstract true) = none →
      eval_step gold (some predicted) abstract = some ([0, 0, 0, 0], [0, 0, 0, 0]))
    ∧ (∀ s, (predicted.head?.bind fun p0 => get_all_scores gold p0 abstract true) = some s →
        eval_step gold (some predicted) abstract = some s)
    ∧ eval_step gold none abstract = none := by
  refine ⟨fun h => ?_, fun s h => ?_, rfl⟩
  · simp only [eval_step, h]
  · simp only [eval_step, h]

/-- Witness for the amended C4: an empty model output (the
`predicted_keywords[0]` IndexError) and an empty gold list (the
ZeroDivisionError in scoring) are both caught and zeroed. -/
theorem c4_witness :
    eval_step ["a"] (some []) "x" = some ([0, 0, 0, 0], [0, 0, 0, 0])
    ∧ eval_step [] (some [["b"]]) "x" = some ([0, 0, 0, 0], [0, 0, 0, 0]) :=
  ⟨(c4_scoring_caught_model_not ["a"] [] "x").1 rfl,
    (c4_scoring_caught_model_not [] [["b"]] "x").1 rfl⟩

/-! ### Claim C9: permutation invariance of aggregate R-precision -/

/-- Helper: under total success of the inner calls, `rbest` is the `maxL`
of the mapped values. -/
theorem rbest_eq_maxL (g : String) (pred : List String)
    (h : ∀ p ∈ pred, (get_Rprecision g p).isSome) :
    rbest g pred = maxL (pred.map fun p => (get_Rprecision g p).iget) := by
  simp only [rbest, optMap_eq_map _ _ h]

/-- Helper: `rbest` is invariant under permutation of the predicted list. -/
theorem rbest_perm (g : String) (pred pred₂ : List String) (pp : pred.Perm pred₂) :
    rbest g pred = rbest g pred₂ := by
  by_cases hall : ∀ p ∈ pred, (get_Rprecision g p).isSome
  · have hall₂ : ∀ p ∈ pred₂, (get_Rprecision g p).isSome :=
      fun p hp => hall p (pp.mem_iff.mpr hp)
    rw [rbest_eq_maxL g pred hall, rbest_eq_maxL g pred₂ hall₂]
    exact maxL_perm _ _ (pp.map _)
  · push_neg at hall
    obtain ⟨p, hp, hnone⟩ := hall
    have hnone₂ : get_Rprecision g p = none := Option.not_isSome_iff_eq_none.mp hnone
    have h1 : optMap (fun pphrase => get_Rprecision g pphrase) pred = none :=
      (optMap_eq_none_iff _ _).mpr ⟨p, hp, hnone₂⟩
    have h2 : optMap (fun pphrase => get_Rprecision g pphrase) pred₂ = none :=
      (optMap_eq_none_iff _ _).mpr ⟨p, pp.mem_iff.mp hp, hnone₂⟩
    simp only [rbest, h1, h2]

/-- C9: for non-empty gold and predicted lists, `get_all_Rprecision` is
invariant under any permutation of the gold list and any permutation of the
predicted list (including the raising behaviour, which is also
permutation-invariant). -/
theorem c9_perm_invariance (gold gold₂ predicted predicted₂ : List String)
    (_hg : gold ≠ []) (_hp : predicted ≠ [])
    (pg : gold.Perm gold₂) (pp : predicted.Perm predicted₂) :
    get_all_Rprecision gold predicted = get_all_Rprecision gold₂ predicted₂ := by
  have hre : ∀ g, rbest g predicted = rbest g predicted₂ := fun g => rbest_perm g _ _ pp
  by_cases hall : ∀ g ∈ gold, (rbest g predicted).isSome
  · have hall₂ : ∀ g ∈ gold₂, (rbest g predicted₂).isSome := fun g hgm => by
      rw [← hre g]
      exact hall g (pg.mem_iff.mpr hgm)
    have hmap : (gold₂.map fun g => (rbest g predicted₂).iget) =
        gold₂.map fun g => (rbest g predicted).iget := by
      apply List.map_congr_left
      intro g _
      rw [hre g]
    simp only [get_all_Rprecision, optMap_eq_map _ _ hall, optMap_eq_map _ _ hall₂, hmap]
    have hperm : (gold.map fun g => (rbest g predicted).iget).Perm
        (gold₂.map fun g => (rbest g predicted).iget) := pg.map _
    rw [hperm.length_eq, hperm.sum_eq]
  · push_neg at hall
    obtain ⟨g, hgm, hnone⟩ := hall
    have hnone₂ : rbest g predicted = none := Option.not_isSome_iff_eq_none.mp hnone
    have h1 : optMap (fun gphrase => rbest gphrase predicted) gold = none :=
      (optMap_eq_none_iff _ _).mpr ⟨g, hgm, hnone₂⟩
    have h2 : optMap (fun gphrase => rbest gphrase predicted₂) gold₂ = none :=
      (optMap_eq_none_iff _ _).mpr ⟨g, pg.mem_iff.mp hgm, by rw [← hre g]; exact hnone₂⟩
    simp only [get_all_Rprecision, h1, h2]

/-- Witness for C9: swapping the gold list does not change the score. -/
theorem c9_witness :
    get_all_Rprecision ["a", "b"] ["x"] = get_all_Rprecision ["b", "a"] ["x"] :=
  c9_perm_invariance ["a", "b"] ["b", "a"] ["x"] ["x"] (by decide) (by decide)
    (List.Perm.swap "b" "a" []) (List.Perm.refl ["x"])

/-! ### Claim C8: base metrics independent of text/adjust; adjusted recomputed -/

/-- Helper: restricting the gold list to a filtered subset preserves the
success of `get_scores` (as long as the subset is non-empty). -/
theorem get_scores_filter_isSome (gold predicted : List String) (q : String → Bool)
    (hs : (get_scores gold predicted).isSome)
    (hne : gold.filter q ≠ []) :
    (get_scores (gold.filter q) predicted).isSome := by
  obtain ⟨hg, hp, hall⟩ := (get_scores_isSome_iff gold predicted).mp hs
  exact (get_scores_isSome_iff _ _).mpr ⟨hne, hp,
    fun g hgm => hall g (List.mem_of_mem_filter hgm)⟩

/-- C8: the first component of `get_all_scores(gold, predicted, text,
adjust)` is exactly `get_scores(gold, predicted)`, for every `text` and
`adjust` (and the call raises exactly when the base scoring raises); and
when `adjust` is true and `text` is non-empty, the adjusted component is
`get_scores` recomputed against the adjusted gold list — the gold phrases
occurring as substrings of `text` — independent of the base result. -/
theorem c8_base_and_adjusted (gold predicted : List String) (text : String)
    (adjust : Bool) :
    (get_all_scores gold predicted text adjust).map Prod.fst = get_scores gold predicted
    ∧ (∀ m, text ≠ "" → get_scores gold predicted = some m →
        (gold.filter (fun each => strIn each text) = [] →
          get_all_scores gold predicted text true = some (m, []))
        ∧ (gold.filter (fun each => strIn each text) ≠ [] →
          ∃ am, get_scores (gold.filter (fun each => strIn each text)) predicted = some am
            ∧ get_all_scores gold predicted text true = some (m, am))) := by
  constructor
  · cases hsc : get_scores gold predicted with
    | none => simp [get_all_scores, hsc]
    | some m =>
      cases adjust with
      | false => simp [get_all_scores, hsc]
      | true =>
        by_cases ht : text = ""
        · simp [get_all_scores, hsc, ht]
        · by_cases hf : (gold.filter (fun each => strIn each text)).length < 1
          · simp [get_all_scores, hsc, ht, hf]
          · have hne : gold.filter (fun each => strIn each text) ≠ [] := by
              intro h0
              rw [h0] at hf
              simp at hf
            have hsome := get_scores_filter_isSome gold predicted _ (by rw [hsc]; rfl) hne
            cases ham : get_scores (gold.filter (fun each => strIn each text)) predicted with
            | none => rw [ham] at hsome; cases hsome
            | some am => simp [get_all_scores, hsc, ht, hf, ham]
  · intro m htext hm
    constructor
    · intro hfil
      simp [get_all_scores, hm, htext, hfil]
    · intro hne
      have hsome := get_scores_filter_isSome gold predicted _ (by rw [hm]; rfl) hne
      cases ham : get_scores (gold.filter (fun each => strIn each text)) predicted with
      | none => rw [ham] at hsome; cases hsome
      | some am =>
        refine ⟨am, rfl, ?_⟩
        have hf : ¬ (gold.filter (fun each => strIn each text)).length < 1 := by
          simpa [Nat.lt_one_iff, List.length_eq_zero] using hne
        simp [get_all_scores, hm, htext, hf, ham]

/-- Helper: the value of `get_Rprecision "b" "a"`. -/
theorem rp_ba : get_Rprecision "b" "a" = some 0 := by
  rw [get_Rprecision_eq "b" "a" (by decide)]
  rw [show ((splitWS "a").countP fun w1 => strIn w1 "b") = 0 from by decide,
    show max (splitWS "a").length (splitWS "b").length = 1 from by decide]
  norm_num

/-- Helper: the value of `get_scores ["a", "b"] ["a"]`. -/
theorem get_scores_ab_a : get_scores ["a", "b"] ["a"] = some [2/3, 1/2, 1, 1/2] := by
  rw [get_scores_eq ["a", "b"] ["a"] (by decide) (by decide) (by decide)]
  rw [show recallSpec ["a", "b"] ["a"] = 1/2 from by
      norm_num [recallSpec,
        show (["a"].countP fun x => (["a", "b"] : List String).contains x) = 1 from by decide],
    show precisionSpec ["a", "b"] ["a"] = 1 from by
      norm_num [precisionSpec,
        show (["a"].countP fun x => (["a", "b"] : List String).contains x) = 1 from by decide],
    show rprecSpec ["a", "b"] ["a"] =
      (listMax [(get_Rprecision "a" "a").iget] +
        (listMax [(get_Rprecision "b" "a").iget] + 0)) / 2 from rfl,
    rp_aa, rp_ba]
  norm_num [get_f1, listMax]

/-- Helper: the value of `get_scores ["a"] ["a"]` (perfect match). -/
theorem get_scores_a_a : get_scores ["a"] ["a"] = some [1, 1, 1, 1] := by
  rw [get_scores_eq ["a"] ["a"] (by decide) (by decide) (by decide)]
  rw [show recallSpec ["a"] ["a"] = 1 from by
      norm_num [recallSpec,
        show (["a"].countP fun x => (["a"] : List String).contains x) = 1 from by decide],
    show precisionSpec ["a"] ["a"] = 1 from by
      norm_num [precisionSpec,
        show (["a"].countP fun x => (["a"] : List String).contains x) = 1 from by decide],
    show rprecSpec ["a"] ["a"] =
      (listMax [(get_Rprecision "a" "a").iget] + 0) / 1 from rfl,
    rp_aa]
  norm_num [get_f1, listMax]

/-- Witness for C8: `text = "a"` contains only one of the two gold
keywords; the adjusted pair is computed against that singleton. -/
theorem c8_witness :
    get_all_scores ["a", "b"] ["a"] "a" true = some ([2/3, 1/2, 1, 1/2], [1, 1, 1, 1]) := by
  have h := ((c8_base_and_adjusted ["a", "b"] ["a"] "a" true).2
    [2/3, 1/2, 1, 1/2] (by decide) get_scores_ab_a).2 (by decide)
  obtain ⟨am, ham, heq⟩ := h
  rw [show ((["a", "b"] : List String).filter fun each => strIn each "a") = ["a"]
    from by decide] at ham
  rw [Option.some_inj.mp (ham.symm.trans get_scores_a_a)] at heq
  exact heq

/-! ### Claim C2: range of the four scores -/

/-- C2 (counterexample to the claim as stated): with the non-empty lists
gold = `["a"]` and predicted = `["a", "a"]` (all divisions defined), the
returned recall is `2` and the returned f1 is `4/3`, both outside
`[0, 1]`: duplicates in the predicted list push the hit count past
`len(gold)`. -/
theorem c2_counterexample :
    get_scores ["a"] ["a", "a"] = some [4/3, 2, 1, 1] ∧ ¬ ((2 : ℚ) ≤ 1) := by
  constructor
  · rw [get_scores_eq ["a"] ["a", "a"] (by decide) (by decide) (by decide)]
    rw [show recallSpec ["a"] ["a", "a"] = 2 from by
        norm_num [recallSpec,
          show (["a", "a"].countP fun x => (["a"] : List String).contains x) = 2
            from by decide],
      show precisionSpec ["a"] ["a", "a"] = 1 from by
        norm_num [precisionSpec,
          show (["a", "a"].countP fun x => (["a"] : List String).contains x) = 2
            from by decide],
      show rprecSpec ["a"] ["a", "a"] =
        (listMax [(get_Rprecision "a" "a").iget, (get_Rprecision "a" "a").iget] + 0) / 1
        from rfl,
      rp_aa]
    norm_num [get_f1, listMax]
  · norm_num

/-- Helper: a defined `get_Rprecision` value lies in `[0, 1]`. -/
theorem get_Rprecision_isSome_bounds (p1 p2 : String)
    (h : (get_Rprecision p1 p2).isSome) :
    0 ≤ (get_Rprecision p1 p2).iget ∧ (get_Rprecision p1 p2).iget ≤ 1 := by
  have hmax : max (splitWS p2).length (splitWS p1).length ≠ 0 := by
    intro h0
    rcases Nat.max_eq_zero_iff.mp h0 with ⟨h2, h1⟩
    rw [(get_Rprecision_none_iff p1 p2).mpr
      ⟨List.length_eq_zero.mp h1, List.length_eq_zero.mp h2⟩] at h
    cases h
  have hpos : (0 : ℚ) < ((max (splitWS p2).length (splitWS p1).length : ℕ) : ℚ) := by
    exact_mod_cast Nat.pos_of_ne_zero hmax
  rw [get_Rprecision_eq p1 p2 hmax]
  constructor
  · simp only [Option.iget_some]
    exact div_nonneg (Nat.cast_nonneg _) (le_of_lt hpos)
  · simp only [Option.iget_some]
    rw [div_le_one hpos]
    exact_mod_cast le_trans (List.countP_le_length _) (le_max_left _ _)

/-- Helper: the maximum of a non-empty list is one of its elements. -/
theorem listMax_mem (l : List ℚ) (h : l ≠ []) : listMax l ∈ l :=
  (maxL_mem_and_le l _ (maxL_eq_listMax l h)).1

/-- Helper: `rprecSpec` lies in `[0, 1]` whenever it is defined. -/
theorem rprecSpec_bounds (gold pred : List String) (hg : gold ≠ []) (hp : pred ≠ [])
    (h : ∀ g ∈ gold, ∀ p ∈ pred, (get_Rprecision g p).isSome) :
    0 ≤ rprecSpec gold pred ∧ rprecSpec gold pred ≤ 1 := by
  have hglen : (0 : ℚ) < (gold.length : ℚ) := by
    exact_mod_cast List.length_pos.mpr hg
  have hvals : ∀ g ∈ gold,
      0 ≤ listMax (pred.map fun p => (get_Rprecision g p).iget)
      ∧ listMax (pred.map fun p => (get_Rprecision g p).iget) ≤ 1 := by
    intro g hgm
    have hmem := listMax_mem (pred.map fun p => (get_Rprecision g p).iget)
      (by simp [hp])
    obtain ⟨p, hpm, hpe⟩ := List.mem_map.mp hmem
    have hb := get_Rprecision_isSome_bounds g p (h g hgm p hpm)
    exact ⟨hpe ▸ hb.1, hpe ▸ hb.2⟩
  constructor
  · rw [rprecSpec]
    apply div_nonneg _ (le_of_lt hglen)
    apply List.sum_nonneg
    intro x hx
    obtain ⟨g, hgm, rfl⟩ := List.mem_map.mp hx
    exact (hvals g hgm).1
  · rw [rprecSpec, div_le_one hglen]
    calc (gold.map fun g => listMax (pred.map fun p => (get_Rprecision g p).iget)).sum
        ≤ (gold.map fun g => listMax (pred.map fun p => (get_Rprecision g p).iget)).length
            • (1 : ℚ) := by
          apply List.sum_le_card_nsmul
          intro x hx
          obtain ⟨g, hgm, rfl⟩ := List.mem_map.mp hx
          exact (hvals g hgm).2
      _ = (gold.length : ℚ) := by simp

/-- Helper: `get_f1` of two non-negative inputs is non-negative. -/
theorem get_f1_nonneg (r p : ℚ) (hr : 0 ≤ r) (hp : 0 ≤ p) : 0 ≤ get_f1 r p := by
  rw [get_f1]
  by_cases h : r + p = 0
  · simp [h]
  · rw [if_neg h]
    have hpos : 0 < p + r := by
      rcases lt_or_eq_of_le (add_nonneg hp hr) with hlt | heq
      · exact hlt
      · exact absurd (by linarith) h
    positivity

/-- Helper: `get_f1` of two inputs in `[0, 1]` is at most `1`. -/
theorem get_f1_le_one (r p : ℚ) (hr0 : 0 ≤ r) (hp0 : 0 ≤ p) (hr1 : r ≤ 1) (hp1 : p ≤ 1) :
    get_f1 r p ≤ 1 := by
  rw [get_f1]
  by_cases h : r + p = 0
  · simp [h]
  · have hpos : 0 < p + r := by
      rcases lt_or_eq_of_le (add_nonneg hp0 hr0) with hlt | heq
      · exact hlt
      · exact absurd (by linarith) h
    rw [if_neg h, div_le_one hpos]
    nlinarith

/-- Helper: without duplicates in `pred`, the number of predicted items
found in the gold list is at most the gold list's length. -/
theorem countP_contains_le_of_nodup (gold pred : List String) (hnd : pred.Nodup) :
    pred.countP (fun x => gold.contains x) ≤ gold.length := by
  rw [List.countP_eq_length_filter]
  have hnd₂ : (pred.filter fun x => gold.contains x).Nodup := hnd.filter _
  have hsub : ∀ x ∈ pred.filter fun x => gold.contains x, x ∈ gold := by
    intro x hx
    have := List.of_mem_filter hx
    simpa [List.elem_iff] using this
  calc (pred.filter fun x => gold.contains x).length
      = (pred.filter fun x => gold.contains x).toFinset.card := by
        rw [List.toFinset_card_of_nodup hnd₂]
    _ ≤ gold.toFinset.card := Finset.card_le_card (fun x hx =>
        List.mem_toFinset.mpr (hsub x (List.mem_toFinset.mp hx)))
    _ ≤ gold.length := gold.toFinset_card_le

/-- C2 (amended): whenever `get_scores(gold, predicted)` returns a value,
all four floats are non-negative and precision and r_precision are at most
`1`; recall and f1 are at most `1` as well provided the predicted list has
no duplicates — with duplicates, recall (and hence f1) can exceed `1`, as
the counterexample shows. -/
theorem c2_scores_range (gold predicted : List String) (s : List ℚ)
    (hs : get_scores gold predicted = some s) :
    s = [get_f1 (recallSpec gold predicted) (precisionSpec gold predicted),
        recallSpec gold predicted, precisionSpec gold predicted, rprecSpec gold predicted]
    ∧ (∀ x ∈ s, 0 ≤ x)
    ∧ precisionSpec gold predicted ≤ 1
    ∧ rprecSpec gold predicted ≤ 1
    ∧ (predicted.Nodup → ∀ x ∈ s, x ≤ 1) := by
  obtain ⟨hg, hp, hall⟩ := (get_scores_isSome_iff gold predicted).mp (by rw [hs]; rfl)
  have hsid : s = [get_f1 (recallSpec gold predicted) (precisionSpec gold predicted),
      recallSpec gold predicted, precisionSpec gold predicted, rprecSpec gold predicted] :=
    Option.some_inj.mp (hs.symm.trans (get_scores_eq gold predicted hg hp hall))
  have hglen : (0 : ℚ) < (gold.length : ℚ) := by
    exact_mod_cast List.length_pos.mpr hg
  have hplen : (0 : ℚ) < (predicted.length : ℚ) := by
    exact_mod_cast List.length_pos.mpr hp
  have hr0 : 0 ≤ recallSpec gold predicted := by
    rw [recallSpec]
    exact div_nonneg (Nat.cast_nonneg _) (le_of_lt hglen)
  have hp0 : 0 ≤ precisionSpec gold predicted := by
    rw [precisionSpec]
    exact div_nonneg (Nat.cast_nonneg _) (le_of_lt hplen)
  have hp1 : precisionSpec gold predicted ≤ 1 := by
    rw [precisionSpec, div_le_one hplen]
    exact_mod_cast List.countP_le_length _
  have hrp := rprecSpec_bounds gold predicted hg hp hall
  refine ⟨hsid, ?_, hp1, hrp.2, ?_⟩
  · intro x hx
    rw [hsid] at hx
    simp only [List.mem_cons, List.not_mem_nil, or_false] at hx
    rcases hx with rfl | rfl | rfl | rfl
    · exact get_f1_nonneg _ _ hr0 hp0
    · exact hr0
    · exact hp0
    · exact hrp.1
  · intro hnd x hx
    have hr1 : recallSpec gold predicted ≤ 1 := by
      rw [recallSpec, div_le_one hglen]
      exact_mod_cast countP_contains_le_of_nodup gold predicted hnd
    rw [hsid] at hx
    simp only [List.mem_cons, List.not_mem_nil, or_false] at hx
    rcases hx with rfl | rfl | rfl | rfl
    · exact get_f1_le_one _ _ hr0 hp0 hr1 hp1
    · exact hr1
    · exact hp1
    · exact hrp.2

/-- Witness for the amended C2 at gold = `["a"]`, predicted = `["a", "b"]`
(duplicate-free): all four scores lie in `[0, 1]`. -/
theorem c2_witness :
    get_scores ["a"] ["a", "b"] = some [2/3, 1, 1/2, 1]
    ∧ ∀ x ∈ ([2/3, 1, 1/2, 1] : List ℚ), 0 ≤ x ∧ x ≤ 1 := by
  have hs : get_scores ["a"] ["a", "b"] = some [2/3, 1, 1/2, 1] := by
    rw [get_scores_eq ["a"] ["a", "b"] (by decide) (by decide) (by decide)]
    rw [show recallSpec ["a"] ["a", "b"] = 1 from by
        rw [recallSpec,
          show (["a", "b"].countP fun x => (["a"] : List String).contains x) = 1
            from by decide]
        norm_num,
      show precisionSpec ["a"] ["a", "b"] = 1/2 from by
        rw [precisionSpec,
          show (["a", "b"].countP fun x => (["a"] : List String).contains x) = 1
            from by decide]
        norm_num,
      show rprecSpec ["a"] ["a", "b"] =
        (listMax [(get_Rprecision "a" "a").iget, (get_Rprecision "a" "b").iget] + 0) / 1
        from rfl,
      rp_aa, rp_ab]
    norm_num [get_f1, listMax]
  have h := c2_scores_range ["a"] ["a", "b"] [2/3, 1, 1/2, 1] hs
  exact ⟨hs, fun x hx => ⟨h.2.1 x hx, h.2.2.2.2 (by decide) x hx⟩⟩
